import Mathlib

/-!
Verification of the table aggregation / normalization / filtering /
serialization pipeline of the Dorm-Meal-Tracker scraper
(`src/scraping/extractPDF.go`).

The Go code is shallowly embedded: a `stringTable` is a list of rows of
cell strings, and a `docTables` value is represented by its single field
`pageTables`, embedded as an association list `PageMap` from page number
to the page's table list (Go's `map[int][]stringTable`; absent key reads
yield the zero value `[]`, which `tablesAt` reproduces with `getD`).
Aborts (Go `panic`) are modelled by `Option`: `none` means the operation
panics.  Go `int` is embedded as `Int` and Go strings as Lean `String`
(lists of runes).
-/

namespace ExtractPDF

/-- `stringTable` is the strings in a TextTable (`type stringTable [][]string`). -/
abbrev stringTable := List (List String)

/-- The `pageTables map[int][]stringTable` field of `docTables`, embedded as an
association list with unique keys. -/
abbrev PageMap := List (Int × List stringTable)

/-- Reading `r.pageTables[pageNum]` in Go: an absent key yields the zero value
`nil` (the empty table list). -/
def tablesAt (r : PageMap) (pageNum : Int) : List stringTable :=
  (List.lookup pageNum r).getD []

/-- `func (t stringTable) wh() (int, int)`: the width and height of table `t`.
`if len(t) == 0 { return 0, 0 }; return len(t[0]), len(t)`. -/
def wh (t : stringTable) : Int × Int :=
  match t with
  | [] => (0, 0)
  | r0 :: rs => ((r0.length : Int), ((r0 :: rs).length : Int))

/-- `func (r *docTables) numTables() int`: sums `len(tables)` over all pages. -/
def numTables (r : PageMap) : Nat :=
  (r.map (fun e => e.2.length)).sum

/-- `func (r *docTables) pageNumbers() []int`: the keys of the page map in
ascending order (`sort.Ints`). -/
def pageNumbers (r : PageMap) : List Int :=
  List.insertionSort (· ≤ ·) (r.map Prod.fst)

/-- `func (r docTables) filter(width, height int) docTables`, inner loop over
one page's tables: `if len(table[0]) >= width && len(table) >= height` keeps
the table.  The code indexes `table[0]` directly (it does not call `wh`), so a
zero-row table makes it panic with an index-out-of-range, modelled as `none`. -/
def filterTables (width height : Int) : List stringTable → Option (List stringTable)
  | [] => some []
  | t :: ts =>
    match t with
    | [] => none
    | r0 :: rs =>
      match filterTables width height ts with
      | none => none
      | some rest =>
        some (if width ≤ ((r0.length : Nat) : Int) ∧ height ≤ (((r0 :: rs).length : Nat) : Int)
              then (r0 :: rs) :: rest else rest)

/-- `func (r docTables) filter(width, height int) docTables`: builds a fresh
map; a page is added only when it keeps at least one table
(`if len(filteredTables) > 0`). -/
def filter (r : PageMap) (width height : Int) : Option PageMap :=
  match r with
  | [] => some []
  | (pageNum, tables) :: rest =>
    match filterTables width height tables with
    | none => none
    | some fts =>
      match filter rest width height with
      | none => none
      | some frest => some (if fts.length > 0 then (pageNum, fts) :: frest else frest)

/-- `func extractTables(inPath string, firstPage, lastPage int)`: clamps the
page range (`if firstPage < 1 { firstPage = 1 }`,
`if lastPage > numPages { lastPage = numPages }`) and stores
`result.pageTables[pageNum] = tables` for every page of the clamped range,
whatever `tables` is.  The external layout extractor (unipdf) is the
parameter `pageTablesOf`, giving the table list the call
`extractPageTables(pdfReader, pageNum)` returns on success; the error paths
return the zero value `docTables{}` and are not modelled. -/
def intRange (lo hi : Int) : List Int :=
  (List.range (hi + 1 - lo).toNat).map (fun i => lo + (i : Int))

def extractTables (pageTablesOf : Int → List stringTable)
    (firstPage lastPage numPages : Int) : PageMap :=
  let first := if firstPage < 1 then 1 else firstPage
  let last := if lastPage > numPages then numPages else lastPage
  (intRange first last).map (fun pageNum => (pageNum, pageTablesOf pageNum))

/-! ### The CSV writer (`encoding/csv` with default settings, as used by
`func (t stringTable) csv() string`) -/

/-- `unicode.IsSpace` on the first rune, as consulted by
`fieldNeedsQuotes` (White_Space property). -/
def goIsSpaceRune (c : Char) : Bool :=
  c = ' ' || c = '\t' || c = '\n' || c = '\x0b' || c = '\x0c' || c = '\r' ||
  c.toNat = 0x85 || c.toNat = 0xa0 || c.toNat = 0x1680 ||
  (0x2000 ≤ c.toNat && c.toNat ≤ 0x200a) ||
  c.toNat = 0x2028 || c.toNat = 0x2029 || c.toNat = 0x202f ||
  c.toNat = 0x205f || c.toNat = 0x3000

/-- `encoding/csv` `(*Writer).fieldNeedsQuotes` with the default comma
delimiter: quote when the field is `\.`, contains a comma, quote, CR or LF,
or begins with a space rune.  The empty field is not quoted. -/
def fieldNeedsQuotes (f : String) : Bool :=
  if f = "" then false
  else if f = "\\." then true
  else if f.data.any (fun c => c = ',' || c = '"' || c = '\r' || c = '\n') then true
  else match f.data with
    | [] => false
    | c :: _ => goIsSpaceRune c

/-- Inside a quoted field the writer doubles each quote character and copies
every other rune unchanged (`UseCRLF` is false, so CR and LF pass through). -/
def escapeQuotes : List Char → List Char
  | [] => []
  | c :: cs => if c = '"' then '"' :: '"' :: escapeQuotes cs else c :: escapeQuotes cs

/-- One field as `(*Writer).Write` emits it. -/
def writeField (f : String) : List Char :=
  if fieldNeedsQuotes f then '"' :: (escapeQuotes f.data ++ ['"']) else f.data

/-- Comma-join of the encoded fields of one record. -/
def joinComma : List (List Char) → List Char
  | [] => []
  | [f] => f
  | f :: g :: fs => f ++ ',' :: joinComma (g :: fs)

/-- One record as `(*Writer).Write` emits it: comma-separated fields followed
by the `\n` terminator (`UseCRLF` is false). -/
def writeRecord (row : List String) : List Char :=
  joinComma (row.map writeField) ++ ['\n']

/-- The row loop of `func (t stringTable) csv() string`:
`if len(row) != w { panic }` else write the record. -/
def csvRows (w : Int) : stringTable → Option (List Char)
  | [] => some []
  | row :: rest =>
    if ((row.length : Nat) : Int) = w then
      match csvRows w rest with
      | none => none
      | some s => some (writeRecord row ++ s)
    else none

/-- `func (t stringTable) csv() string`: `w, h := t.wh()`, write each row,
panicking (here `none`) on any row whose length differs from `w`. -/
def csv (t : stringTable) : Option String :=
  (csvRows (wh t).1 t).map String.mk

/-! ### A standard CSV parser

Modelled from the spec: "`toDelimitedText` followed by a standard CSV parse".
The parser below follows RFC 4180 field syntax — a field is either quoted
(`"` … `"`, with `""` denoting a literal quote, and commas, CR and LF kept
verbatim inside the quotes) or the raw run of characters up to the next
comma or LF — with the universal convention, shared by Go's
`encoding/csv.Reader` and Python's `csv`, that a blank line does not produce
a record consisting of one empty field. -/

/-- Characters of an unquoted field: everything up to the next `,` or `\n`,
which is left in the remainder. -/
def parseUnquoted : List Char → List Char × List Char
  | [] => ([], [])
  | c :: cs =>
    if c = ',' ∨ c = '\n' then ([], c :: cs)
    else
      let p := parseUnquoted cs
      (c :: p.1, p.2)

/-- Characters of a quoted field, entered after the opening quote: `""` is a
literal quote, a lone `"` closes the field, all other characters are kept. -/
def parseQuoted : List Char → List Char × List Char
  | [] => ([], [])
  | c :: cs =>
    if c = '"' then
      match cs with
      | [] => ([], [])
      | d :: ds =>
        if d = '"' then
          let p := parseQuoted ds
          ('"' :: p.1, p.2)
        else ([], cs)
    else
      let p := parseQuoted cs
      (c :: p.1, p.2)

/-- One field: quoted if it starts with a quote, otherwise unquoted. -/
def parseField (cs : List Char) : List Char × List Char :=
  match cs with
  | [] => parseUnquoted []
  | c :: rest => if c = '"' then parseQuoted rest else parseUnquoted (c :: rest)

theorem parseUnquoted_rest_le (cs : List Char) : (parseUnquoted cs).2.length ≤ cs.length := by
  induction cs with
  | nil => simp [parseUnquoted]
  | cons c cs ih =>
    simp only [parseUnquoted]
    split
    · simp
    · simpa using Nat.le_succ_of_le ih

theorem parseQuoted_nil : parseQuoted [] = ([], []) := rfl

theorem parseQuoted_q_nil : parseQuoted ['"'] = ([], []) := rfl

theorem parseQuoted_q_q (ds : List Char) :
    parseQuoted ('"' :: '"' :: ds) = ('"' :: (parseQuoted ds).1, (parseQuoted ds).2) := rfl

theorem parseQuoted_q_other {d : Char} (hd : d ≠ '"') (ds : List Char) :
    parseQuoted ('"' :: d :: ds) = ([], d :: ds) := by
  rw [parseQuoted.eq_def]
  simp [hd]

theorem parseQuoted_other {c : Char} (hc : c ≠ '"') (cs : List Char) :
    parseQuoted (c :: cs) = (c :: (parseQuoted cs).1, (parseQuoted cs).2) := by
  rw [parseQuoted.eq_def]
  simp [hc]

theorem parseQuoted_rest_le (cs : List Char) : (parseQuoted cs).2.length ≤ cs.length := by
  generalize hn : cs.length = n
  induction n using Nat.strong_induction_on generalizing cs with
  | _ n ih =>
    cases cs with
    | nil => simp [parseQuoted]
    | cons c cs =>
      by_cases hc : c = '"'
      · subst hc
        cases cs with
        | nil => simp [parseQuoted_q_nil]
        | cons d ds =>
          by_cases hd : d = '"'
          · subst hd
            rw [parseQuoted_q_q]
            have h2 := ih ds.length (by simp at hn; omega) ds rfl
            simp at hn ⊢
            omega
          · rw [parseQuoted_q_other hd]
            simp at hn ⊢
            omega
      · rw [parseQuoted_other hc]
        have h2 := ih cs.length (by simp at hn; omega) cs rfl
        simp at hn ⊢
        omega

theorem parseField_nil : parseField [] = ([], []) := rfl

theorem parseField_quote (rest : List Char) : parseField ('"' :: rest) = parseQuoted rest := by
  simp [parseField]

theorem parseField_other {c : Char} (hc : c ≠ '"') (rest : List Char) :
    parseField (c :: rest) = parseUnquoted (c :: rest) := by
  simp [parseField, hc]

theorem parseField_rest_le (cs : List Char) : (parseField cs).2.length ≤ cs.length := by
  cases cs with
  | nil => simp [parseField, parseUnquoted]
  | cons c rest =>
    rw [parseField]
    split
    · exact Nat.le_succ_of_le (parseQuoted_rest_le rest)
    · exact parseUnquoted_rest_le (c :: rest)

/-- One record: fields separated by commas, terminated by `\n` or the end of
the input. -/
def parseRecord (cs : List Char) : List (List Char) × List Char :=
  let fr := parseField cs
  match hr : fr.2 with
  | ',' :: r =>
    have : r.length < cs.length := by
      have h1 := parseField_rest_le cs
      rw [hr] at h1
      simp at h1
      omega
    let p := parseRecord r
    (fr.1 :: p.1, p.2)
  | '\n' :: r => ([fr.1], r)
  | _ => ([fr.1], [])
termination_by cs.length

theorem parseRecord_rest_lt (cs : List Char) (h : cs ≠ []) :
    (parseRecord cs).2.length < cs.length := by
  generalize hn : cs.length = n
  induction n using Nat.strong_induction_on generalizing cs with
  | _ n ih =>
    have hpos : 0 < n := hn ▸ List.length_pos.mpr h
    rw [parseRecord]
    have h1 := parseField_rest_le cs
    split
    · next r hr =>
      rw [hr, hn] at h1
      simp at h1
      rcases Decidable.em (r = []) with he | he
      · subst he
        simp [parseRecord, parseField, parseUnquoted]
        omega
      · have := ih r.length (by omega) r he rfl
        simp only []
        omega
    · next r hr =>
      rw [hr, hn] at h1
      simp at h1
      show r.length < n
      omega
    · simpa using hpos

/-- The whole input: a blank line yields no record; any other line is parsed
as one record. -/
def parseCSV (cs : List Char) : List (List (List Char)) :=
  match cs with
  | [] => []
  | '\n' :: rest => parseCSV rest
  | c :: rest =>
    have : (parseRecord (c :: rest)).2.length < (c :: rest).length :=
      parseRecord_rest_lt _ (by simp)
    let p := parseRecord (c :: rest)
    p.1 :: parseCSV p.2
termination_by cs.length

/-- String-level wrapper of the parser: the grid of cell strings. -/
def parseCSVText (s : String) : List (List String) :=
  (parseCSV s.data).map (fun row => row.map String.mk)

/-! ### The text normalizer (`normalize` / `reduceSpaces`) -/

/-- The character class of Go's regexp `\s` (RE2 Perl class): `[\t\n\f\r ]`.
Note that it contains the form feed but not the vertical tab. -/
def goRegexSpace (c : Char) : Bool :=
  c = '\t' || c = '\n' || c = '\x0c' || c = '\r' || c = ' '

/-- `reSpace.ReplaceAllString(text, " ")` for `reSpace = (?m)\s+`: every
maximal run of `\s` characters is replaced by a single ASCII space.  The
flag records whether the previous character belonged to a run. -/
def collapseRuns (prevSpace : Bool) : List Char → List Char
  | [] => []
  | c :: cs =>
    if goRegexSpace c then
      if prevSpace then collapseRuns true cs
      else ' ' :: collapseRuns true cs
    else c :: collapseRuns false cs

/-- The cutset of `strings.Trim(text, " \t\n\r\v")`. -/
def trimCut (c : Char) : Bool :=
  c = ' ' || c = '\t' || c = '\n' || c = '\r' || c = '\x0b'

/-- `strings.TrimRight` over the cutset: drops the maximal suffix of cutset
characters. -/
def trimRight : List Char → List Char
  | [] => []
  | c :: cs =>
    match trimRight cs with
    | [] => if trimCut c then [] else [c]
    | r => c :: r

/-- `strings.Trim(text, " \t\n\r\v")`: leading then trailing cutset
characters removed. -/
def trimGo (cs : List Char) : List Char :=
  trimRight (cs.dropWhile trimCut)

/-- `func reduceSpaces(text string) string`: collapse `\s+` runs to a single
space, then trim `" \t\n\r\v"` from both ends. -/
def reduceSpaces (s : String) : String :=
  String.mk (trimGo (collapseRuns false s.data))

/-- The external Unicode normalizer `norm.NFKC.String` (golang.org/x/text).
Its character tables are not reproduced here, so it is embedded as the
identity function, which is faithful exactly on NFKC-fixed text.  The
idempotency conjunct of the amended C4 theorem is therefore restricted to
ASCII input (all ASCII text is NFKC-fixed); the other conjuncts depend only
on the output shape of `reduceSpaces`, which the program applies last, so
they hold whatever the normalizer does. -/
def nfkc (s : String) : String := s

/-- `func normalize(text string) string`:
`reduceSpaces(norm.NFKC.String(text))`. -/
def normalize (s : String) : String :=
  reduceSpaces (nfkc s)

/-- The spec's notion of a whitespace character: "space, tab, newline,
carriage return, vertical tab, and any Unicode whitespace" — the Unicode
White_Space property, the same table as `goIsSpaceRune`. -/
def specWhitespace (c : Char) : Bool := goIsSpaceRune c

/-- Whether the list contains two consecutive characters satisfying `p`. -/
def hasTwoConsec (p : Char → Bool) : List Char → Bool
  | c1 :: c2 :: rest => (p c1 && p c2) || hasTwoConsec p (c2 :: rest)
  | _ => false

/-! ### `describe` and its helpers -/

/-- `fmt.Sprintf("%q", cell)` (strconv.Quote) on one rune: quotes and
backslashes are escaped, the standard control escapes are used, other ASCII
printable runes pass through, remaining ASCII control runes use `\xhh`.
(Go consults its Unicode printability tables for runes above 0x7f; the
claims never exercise that corner, and such runes pass through here.) -/
def hexDigit (n : Nat) : Char :=
  if n < 10 then Char.ofNat ('0'.toNat + n) else Char.ofNat ('a'.toNat + (n - 10))

def goQuoteChar (c : Char) : List Char :=
  if c = '"' then ['\\', '"']
  else if c = '\\' then ['\\', '\\']
  else if c = '\x07' then ['\\', 'a']
  else if c = '\x08' then ['\\', 'b']
  else if c = '\x0c' then ['\\', 'f']
  else if c = '\n' then ['\\', 'n']
  else if c = '\r' then ['\\', 'r']
  else if c = '\t' then ['\\', 't']
  else if c = '\x0b' then ['\\', 'v']
  else if c.toNat < 0x20 ∨ c.toNat = 0x7f then '\\' :: 'x' :: [hexDigit (c.toNat / 16 % 16), hexDigit (c.toNat % 16)]
  else [c]

def goQuote (s : String) : String :=
  String.mk ('"' :: s.data.flatMap goQuoteChar ++ ['"'])

/-- The level-4 row line of `describe`: each non-empty cell `%q`-quoted, an
empty cell left as the empty string, joined with `", "` inside
`"        [%s]\n"`. -/
def rowLine (row : List String) : String :=
  let cells := row.map (fun cell => if cell.length > 0 then goQuote cell else "")
  "        [" ++ String.intercalate ", " cells ++ "]\n"

/-- The level-3 block of `describe` for one table: the
`"      table %d: %d x %d\n"` line (1-based index, `wh` dimensions),
followed at level ≥ 4 by the rows unless the table has zero rows. -/
def tableBlock (level : Int) (i : Nat) (table : stringTable) : String :=
  "      table " ++ toString (i + 1) ++ ": " ++ toString (wh table).1 ++ " x "
      ++ toString (wh table).2 ++ "\n"
    ++ (if level ≤ 3 ∨ table.length = 0 then "" else String.join (table.map rowLine))

/-- The level-2 block of `describe` for one page: nothing for a page with an
empty table list, otherwise the `"   page %d: %d tables\n"` line followed at
level ≥ 3 by the table blocks. -/
def pageBlock (r : PageMap) (level : Int) (pageNum : Int) : String :=
  let tables := tablesAt r pageNum
  if tables.length = 0 then ""
  else
    "   page " ++ toString pageNum ++ ": " ++ toString tables.length ++ " tables\n"
      ++ (if level ≤ 2 then "" else String.join (tables.enum.map (fun e => tableBlock level e.1 e.2)))

/-- `func (r *docTables) describe(level int) string`. -/
def describe (r : PageMap) (level : Int) : String :=
  if level = 0 ∨ numTables r = 0 then "\n"
  else
    let header := toString (pageNumbers r).length ++ " pages " ++ toString (numTables r)
      ++ " tables\n"
    if level ≤ 1 then header
    else header ++ String.join ((pageNumbers r).map (pageBlock r level))

/-! ### `saveCSVFiles` -/

/-- The file name `fmt.Sprintf("%s.page%d.table%d.csv", csvRoot, pageNum, i+1)`
for the table at (0-based) index `i` of page `pageNum`. -/
def csvPath (csvRoot : String) (pageNum : Int) (i : Nat) : String :=
  csvRoot ++ ".page" ++ toString pageNum ++ ".table" ++ toString (i + 1) ++ ".csv"

/-- Inner loop of `saveCSVFiles` over one page's tables, accumulating the
`(path, contents)` pairs written, in write order; `none` if some `csv()`
call panics. -/
def saveTables (csvRoot : String) (pageNum : Int) : Nat → List stringTable → Option (List (String × String))
  | _, [] => some []
  | i, t :: ts =>
    match csv t with
    | none => none
    | some contents =>
      match saveTables csvRoot pageNum (i + 1) ts with
      | none => none
      | some rest => some ((csvPath csvRoot pageNum i, contents) :: rest)

/-- Outer loop of `saveCSVFiles` over the given page sequence. -/
def savePages (csvRoot : String) (r : PageMap) : List Int → Option (List (String × String))
  | [] => some []
  | p :: ps =>
    match saveTables csvRoot p 0 (tablesAt r p) with
    | none => none
    | some here =>
      match savePages csvRoot r ps with
      | none => none
      | some rest => some (here ++ rest)

/-- `func (r docTables) saveCSVFiles(csvRoot string) error`: one CSV file per
table, pages visited in `pageNumbers()` order; the result is the ordered log
of `(path, contents)` writes. -/
def saveCSVFiles (r : PageMap) (csvRoot : String) : Option (List (String × String)) :=
  savePages csvRoot r (pageNumbers r)

/-! ### `extractDirectory` -/

/-- `strings.Split(s, sep)` for a one-character separator: the substrings
between occurrences of `sep`; always at least one part. -/
def goSplit (sep : Char) : List Char → List (List Char)
  | [] => [[]]
  | c :: rest =>
    let r := goSplit sep rest
    if c = sep then [] :: r
    else
      match r with
      | [] => [[c]]
      | p :: ps => (c :: p) :: ps

/-- `func extractDirectory(filepath string, depth int) (string, error)`:
splits the path on `/`; with `depth == -1` it takes the file name (last
part) before its first `.`; otherwise it indexes `parts[depth]` directly,
which panics (`none`) when `depth` is out of range.  A returned error is
`some (Except.error ())` (only reachable from the dead `len(parts) == 0`
check), a returned token is `some (Except.ok token)`. -/
def extractDirectory (fp : String) (depth : Int) : Option (Except Unit String) :=
  let parts := goSplit '/' fp.data
  if parts.length = 0 then some (Except.error ())
  else if depth = -1 then
    let fileName := parts.getLastD []
    some (Except.ok (String.mk ((goSplit '.' fileName).headD [])))
  else if h : 0 ≤ depth ∧ depth.toNat < parts.length then
    some (Except.ok (String.mk ((goSplit '.' (parts.get ⟨depth.toNat, h.2⟩)).headD [])))
  else none

/-! ### A heap model for the frame property of `filter`

`docTables` holds a Go map, a reference into the heap.  To state that
`filter` does not mutate its receiver we make the heap explicit: a `Heap`
is the list of allocated page maps, a reference is an index into it.
`filterH` performs exactly the effects of `func (r docTables) filter`:
it allocates the fresh map of the result (`make(map[int][]stringTable)`),
reads the receiver's map, and stores each page that keeps at least one
table into the fresh map. -/

structure Heap where
  refs : List PageMap

def Heap.read (hp : Heap) (r : Nat) : PageMap :=
  hp.refs.getD r []

def Heap.alloc (hp : Heap) : Heap × Nat :=
  (⟨hp.refs ++ [[]]⟩, hp.refs.length)

/-- `m[k] = v` on the map at reference `r`. -/
def setKey (m : PageMap) (k : Int) (v : List stringTable) : PageMap :=
  if m.any (fun e => e.1 = k) then m.map (fun e => if e.1 = k then (k, v) else e)
  else m ++ [(k, v)]

def Heap.writeKey (hp : Heap) (r : Nat) (k : Int) (v : List stringTable) : Heap :=
  ⟨hp.refs.set r (setKey (hp.refs.getD r []) k v)⟩

/-- The page loop of `filter`, writing into the freshly allocated map `dst`:
`filtered.pageTables[pageNum] = filteredTables` when `len(filteredTables) > 0`. -/
def filterLoop (width height : Int) (dst : Nat) :
    List (Int × List stringTable) → Heap → Option Heap
  | [], hp => some hp
  | (pageNum, tables) :: rest, hp =>
    match filterTables width height tables with
    | none => none
    | some fts =>
      filterLoop width height dst rest
        (if fts.length > 0 then hp.writeKey dst pageNum fts else hp)

/-- `func (r docTables) filter(width, height int) docTables` with its heap
effects explicit: allocate the result map, loop over the receiver's pages,
return the reference of the new map. -/
def filterH (hp : Heap) (r : Nat) (width height : Int) : Option (Heap × Nat) :=
  let a := hp.alloc
  (filterLoop width height a.2 (hp.read r) a.1).map (fun hp2 => (hp2, a.2))

/-!
## Lemmas

First the two halves of the `String` / `List Char` isomorphism.
-/

theorem data_mk (l : List Char) : (String.mk l).data = l := rfl

theorem mk_data (s : String) : String.mk s.data = s := by
  cases s
  rfl

/-! ### `normalize`: output shape and idempotency -/

/-- Every `\s`-class character of the list is a plain space. -/
def spaceOnly (l : List Char) : Prop :=
  ∀ c ∈ l, goRegexSpace c = true → c = ' '

theorem hasTwoConsec_cons_false {p : Char → Bool} {c : Char} {l : List Char}
    (h : hasTwoConsec p (c :: l) = false) : hasTwoConsec p l = false := by
  cases l with
  | nil => simp [hasTwoConsec]
  | cons d ds =>
    rw [hasTwoConsec] at h
    exact (Bool.or_eq_false_iff.mp h).2

theorem hasTwoConsec_pair {p : Char → Bool} {c d : Char} {l : List Char}
    (h : hasTwoConsec p (c :: d :: l) = false) : ¬(p c = true ∧ p d = true) := by
  rw [hasTwoConsec] at h
  rcases (Bool.or_eq_false_iff.mp h).1 with h1
  intro hcd
  rw [hcd.1, hcd.2] at h1
  simp at h1

theorem hasTwoConsec_cons_of {p : Char → Bool} {c : Char} {l : List Char}
    (hl : hasTwoConsec p l = false)
    (hc : ∀ d, l.head? = some d → ¬(p c = true ∧ p d = true)) :
    hasTwoConsec p (c :: l) = false := by
  cases l with
  | nil => rfl
  | cons d ds =>
    rw [hasTwoConsec, Bool.or_eq_false_iff]
    refine ⟨?_, hl⟩
    have := hc d rfl
    cases hpc : p c <;> cases hpd : p d <;> simp_all

theorem collapseRuns_spaceOnly (b : Bool) (l : List Char) :
    spaceOnly (collapseRuns b l) := by
  induction l generalizing b with
  | nil => intro c hc; simp [collapseRuns] at hc
  | cons c cs ih =>
    intro d hd hsp
    rw [collapseRuns] at hd
    split at hd
    · split at hd
      · exact ih true d hd hsp
      · rcases List.mem_cons.mp hd with h | h
        · exact h
        · exact ih true d h hsp
    · rcases List.mem_cons.mp hd with h | h
      · subst h
        simp_all
      · exact ih false d h hsp

theorem collapseRuns_true_head (l : List Char) {c : Char}
    (h : (collapseRuns true l).head? = some c) : goRegexSpace c = false := by
  induction l with
  | nil => simp [collapseRuns] at h
  | cons d ds ih =>
    rw [collapseRuns] at h
    split at h
    · exact ih h
    · next hd =>
      simp at h
      subst h
      simpa using hd

theorem collapseRuns_false_head (l : List Char) {c : Char}
    (h : (collapseRuns false l).head? = some c) : goRegexSpace c = false ∨ c = ' ' := by
  cases l with
  | nil => simp [collapseRuns] at h
  | cons d ds =>
    rw [collapseRuns] at h
    split at h
    · simp at h
      right
      exact h.symm
    · next hd =>
      simp at h
      subst h
      left
      simpa using hd

theorem collapseRuns_noTwoAdj (b : Bool) (l : List Char) :
    hasTwoConsec goRegexSpace (collapseRuns b l) = false := by
  induction l generalizing b with
  | nil => rfl
  | cons c cs ih =>
    rw [collapseRuns]
    split
    · split
      · exact ih true
      · refine hasTwoConsec_cons_of (ih true) ?_
        intro d hd hcd
        rw [collapseRuns_true_head cs hd] at hcd
        exact absurd hcd.2 (by simp)
    · next hc =>
      refine hasTwoConsec_cons_of (ih false) ?_
      intro d hd hcd
      exact absurd hcd.1 (by simpa using hc)

theorem mem_trimRight {l : List Char} {c : Char} (h : c ∈ trimRight l) : c ∈ l := by
  induction l with
  | nil => simp [trimRight] at h
  | cons d ds ih =>
    rw [trimRight] at h
    split at h
    · split at h
      · simp at h
      · simp at h
        simp [h]
    · rcases List.mem_cons.mp h with h1 | h1
      · simp [h1]
      · exact List.mem_cons_of_mem _ (ih h1)

theorem mem_trimGo {l : List Char} {c : Char} (h : c ∈ trimGo l) : c ∈ l :=
  (List.dropWhile_sublist trimCut).mem (mem_trimRight h)

theorem trimRight_head? (l : List Char) :
    (trimRight l).head? = none ∨ (trimRight l).head? = l.head? := by
  cases l with
  | nil => left; rfl
  | cons c cs =>
    rw [trimRight]
    split
    · split
      · left; rfl
      · right; rfl
    · next r hr => right; rfl

theorem trimRight_noTwoAdj {p : Char → Bool} {l : List Char}
    (h : hasTwoConsec p l = false) : hasTwoConsec p (trimRight l) = false := by
  induction l with
  | nil => simpa [trimRight] using h
  | cons c cs ih =>
    rw [trimRight]
    split
    · split
      · rfl
      · rfl
    · refine hasTwoConsec_cons_of (ih (hasTwoConsec_cons_false h)) ?_
      intro d hd
      rcases trimRight_head? cs with h1 | h1
      · rw [h1] at hd; simp at hd
      · rw [h1] at hd
        cases cs with
        | nil => simp at hd
        | cons e es =>
          simp at hd
          subst hd
          exact hasTwoConsec_pair h

theorem dropWhile_noTwoAdj {p q : Char → Bool} {l : List Char}
    (h : hasTwoConsec p l = false) : hasTwoConsec p (l.dropWhile q) = false := by
  induction l with
  | nil => simpa using h
  | cons c cs ih =>
    rw [List.dropWhile_cons]
    split
    · exact ih (hasTwoConsec_cons_false h)
    · exact h

theorem dropWhile_head_not {q : Char → Bool} {l : List Char} {c : Char}
    (h : (l.dropWhile q).head? = some c) : q c = false := by
  induction l with
  | nil => simp at h
  | cons d ds ih =>
    rw [List.dropWhile_cons] at h
    split at h
    · exact ih h
    · next hq =>
      simp at h
      subst h
      simpa using hq

theorem trimRight_getLast_not {l : List Char} {c : Char}
    (h : (trimRight l).getLast? = some c) : trimCut c = false := by
  induction l with
  | nil => simp [trimRight] at h
  | cons d ds ih =>
    rw [trimRight] at h
    split at h
    · split at h
      · simp at h
      · next hd =>
        simp at h
        subst h
        simpa using hd
    · next r hr =>
      cases he : trimRight ds with
      | nil => exact absurd he hr
      | cons e es =>
        rw [he, List.getLast?_cons_cons] at h
        exact ih (by rw [he]; exact h)

theorem collapseRuns_fixed {l : List Char} (hso : spaceOnly l)
    (hadj : hasTwoConsec goRegexSpace l = false) : collapseRuns false l = l := by
  induction l with
  | nil => rfl
  | cons c cs ih =>
    have hso' : spaceOnly cs := fun d hd => hso d (List.mem_cons_of_mem _ hd)
    have hadj' := hasTwoConsec_cons_false hadj
    rw [collapseRuns]
    split
    · next hc =>
      have hceq : c = ' ' := hso c (by simp) hc
      subst hceq
      simp only [Bool.false_eq_true, if_false]
      cases cs with
      | nil => rfl
      | cons d ds =>
        have hd : goRegexSpace d = false := by
          have hp := hasTwoConsec_pair hadj
          cases hgd : goRegexSpace d
          · rfl
          · exact absurd ⟨hc, hgd⟩ hp
        have ih2 := ih hso' hadj'
        rw [collapseRuns, hd] at ih2
        simp only [Bool.false_eq_true, if_false] at ih2
        rw [collapseRuns, hd]
        simp only [Bool.false_eq_true, if_false]
        rw [ih2]
    · exact congrArg _ (ih hso' hadj')

theorem dropWhile_fixed {q : Char → Bool} {l : List Char}
    (h : ∀ c, l.head? = some c → q c = false) : l.dropWhile q = l := by
  cases l with
  | nil => rfl
  | cons c cs =>
    rw [List.dropWhile_cons, if_neg (by simp [h c rfl])]

theorem trimRight_fixed {l : List Char}
    (h : ∀ c, l.getLast? = some c → trimCut c = false) : trimRight l = l := by
  induction l with
  | nil => rfl
  | cons c cs ih =>
    rw [trimRight]
    cases cs with
    | nil =>
      have := h c rfl
      simp [trimRight, this]
    | cons d ds =>
      have : trimRight (d :: ds) = d :: ds := by
        apply ih
        intro e he
        exact h e (by rwa [List.getLast?_cons_cons])
      rw [this]

/-- The shape facts about `reduceSpaces` output: its `\s`-class characters
are single spaces with no two adjacent, and neither end is a character of
the trim cutset `" \t\n\r\v"` or of the collapsed class `[\t\n\f\r ]`
(whitespace outside those two classes — e.g. U+2028 — can remain anywhere,
the ends included). -/
theorem reduceSpaces_shape (s : String) :
    spaceOnly (reduceSpaces s).data
    ∧ hasTwoConsec goRegexSpace (reduceSpaces s).data = false
    ∧ (∀ c, (reduceSpaces s).data.head? = some c →
        trimCut c = false ∧ goRegexSpace c = false)
    ∧ (∀ c, (reduceSpaces s).data.getLast? = some c →
        trimCut c = false ∧ goRegexSpace c = false) := by
  have hdata : (reduceSpaces s).data = trimGo (collapseRuns false s.data) := rfl
  rw [hdata]
  have hso : spaceOnly (trimGo (collapseRuns false s.data)) := by
    intro c hc
    exact collapseRuns_spaceOnly false s.data c (mem_trimGo hc)
  have hreg : ∀ c, c ∈ trimGo (collapseRuns false s.data) → trimCut c = false →
      goRegexSpace c = false := by
    intro c hmem hcut
    cases hg : goRegexSpace c with
    | false => rfl
    | true =>
      exfalso
      have hsp := hso c hmem hg
      rw [hsp] at hcut
      simp [trimCut] at hcut
  refine ⟨hso, trimRight_noTwoAdj (dropWhile_noTwoAdj (collapseRuns_noTwoAdj false s.data)), ?_, ?_⟩
  · intro c hc
    have hmem : c ∈ trimGo (collapseRuns false s.data) :=
      List.mem_of_mem_head? (Option.mem_def.mpr hc)
    have hcut : trimCut c = false := by
      rw [trimGo] at hc
      rcases trimRight_head? ((collapseRuns false s.data).dropWhile trimCut) with h1 | h1
      · rw [h1] at hc; simp at hc
      · exact dropWhile_head_not (h1 ▸ hc)
    exact ⟨hcut, hreg c hmem hcut⟩
  · intro c hc
    have hcut : trimCut c = false := trimRight_getLast_not hc
    have hmem : c ∈ trimGo (collapseRuns false s.data) :=
      List.mem_of_mem_getLast? (Option.mem_def.mpr hc)
    exact ⟨hcut, hreg c hmem hcut⟩

/-! ### `filter`: characterization per page -/

/-- The filter predicate of the spec, in terms of `wh`: width at least
`width` and height at least `height`. -/
def passes (width height : Int) (t : stringTable) : Bool :=
  decide (width ≤ (wh t).1) && decide (height ≤ (wh t).2)

theorem filterTables_eq {w h : Int} {ts fts : List stringTable}
    (hf : filterTables w h ts = some fts) : fts = ts.filter (passes w h) := by
  induction ts generalizing fts with
  | nil =>
    simp [filterTables] at hf
    rw [hf]
    rfl
  | cons t ts ih =>
    cases t with
    | nil => simp [filterTables] at hf
    | cons r0 rs =>
      rw [filterTables] at hf
      cases hrec : filterTables w h ts with
      | none => rw [hrec] at hf; simp at hf
      | some rest =>
        rw [hrec] at hf
        simp only [Option.some.injEq] at hf
        have hc' := Decidable.em (w ≤ ((r0.length : Nat) : Int) ∧ h ≤ (((r0 :: rs).length : Nat) : Int))
        by_cases hc : w ≤ ((r0.length : Nat) : Int) ∧ h ≤ (((r0 :: rs).length : Nat) : Int)
        · rw [← hf, if_pos hc, List.filter_cons_of_pos (by simp [passes, wh]; exact hc),
            ih hrec]
        · have hc2 : ¬(w ≤ (r0.length : Int) ∧ h ≤ ((rs.length : Int) + 1)) := by
            simpa using hc
          rw [← hf, if_neg hc, List.filter_cons_of_neg (by simp [passes, wh]; omega)]
          exact ih hrec

theorem filterTables_all_nonempty {w h : Int} {ts fts : List stringTable}
    (hf : filterTables w h ts = some fts) : ∀ t ∈ ts, t ≠ [] := by
  induction ts generalizing fts with
  | nil => simp
  | cons t ts ih =>
    cases t with
    | nil => simp [filterTables] at hf
    | cons r0 rs =>
      rw [filterTables] at hf
      cases hrec : filterTables w h ts with
      | none => rw [hrec] at hf; simp at hf
      | some rest =>
        intro u hu
        rcases List.mem_cons.mp hu with h1 | h1
        · subst h1; simp
        · exact ih hrec u h1

theorem filter_keys_sublist {w h : Int} {r r' : PageMap}
    (hf : filter r w h = some r') : (r'.map Prod.fst).Sublist (r.map Prod.fst) := by
  induction r generalizing r' with
  | nil =>
    simp [filter] at hf
    rw [hf]
  | cons e rest ih =>
    obtain ⟨p0, ts⟩ := e
    rw [filter] at hf
    cases h1 : filterTables w h ts with
    | none => rw [h1] at hf; simp at hf
    | some fts =>
      rw [h1] at hf
      cases h2 : filter rest w h with
      | none => rw [h2] at hf; simp at hf
      | some frest =>
        rw [h2] at hf
        simp only [Option.some.injEq] at hf
        by_cases hlen : fts.length > 0
        · rw [← hf, if_pos hlen]
          exact List.Sublist.cons₂ _ (ih h2)
        · rw [← hf, if_neg hlen]
          exact List.Sublist.cons _ (ih h2)

theorem filter_entry_nonempty {w h : Int} {r r' : PageMap}
    (hf : filter r w h = some r') : ∀ e ∈ r', e.2 ≠ [] := by
  induction r generalizing r' with
  | nil =>
    simp [filter] at hf
    rw [hf]
    simp
  | cons e rest ih =>
    obtain ⟨p0, ts⟩ := e
    rw [filter] at hf
    cases h1 : filterTables w h ts with
    | none => rw [h1] at hf; simp at hf
    | some fts =>
      rw [h1] at hf
      cases h2 : filter rest w h with
      | none => rw [h2] at hf; simp at hf
      | some frest =>
        rw [h2] at hf
        simp only [Option.some.injEq] at hf
        intro u hu
        by_cases hlen : fts.length > 0
        · rw [← hf, if_pos hlen] at hu
          rcases List.mem_cons.mp hu with he | he
          · subst he
            simpa using List.length_pos.mp hlen
          · exact ih h2 u he
        · rw [← hf, if_neg hlen] at hu
          exact ih h2 u hu

theorem lookup_eq_none_of_not_mem {p : Int} {m : PageMap}
    (h : p ∉ m.map Prod.fst) : List.lookup p m = none := by
  induction m with
  | nil => rfl
  | cons e rest ih =>
    obtain ⟨k, v⟩ := e
    simp at h
    rw [List.lookup]
    have : (p == k) = false := by simpa using h.1
    rw [this]
    exact ih (by simpa using h.2)

theorem filter_tablesAt {w h : Int} {r r' : PageMap}
    (hnd : (r.map Prod.fst).Nodup) (hf : filter r w h = some r') (p : Int) :
    tablesAt r' p = (tablesAt r p).filter (passes w h) := by
  induction r generalizing r' with
  | nil =>
    simp [filter] at hf
    rw [hf]
    simp [tablesAt]
  | cons e rest ih =>
    obtain ⟨p0, ts⟩ := e
    rw [filter] at hf
    cases h1 : filterTables w h ts with
    | none => rw [h1] at hf; simp at hf
    | some fts =>
      rw [h1] at hf
      cases h2 : filter rest w h with
      | none => rw [h2] at hf; simp at hf
      | some frest =>
        rw [h2] at hf
        simp only [Option.some.injEq] at hf
        have hnd' : (rest.map Prod.fst).Nodup := (List.nodup_cons.mp (by simpa using hnd)).2
        have hp0 : p0 ∉ rest.map Prod.fst := (List.nodup_cons.mp (by simpa using hnd)).1
        by_cases hpe : p = p0
        · subst hpe
          have hL : tablesAt ((p, ts) :: rest) p = ts := by
            simp [tablesAt, List.lookup]
          rw [hL]
          by_cases hlen : fts.length > 0
          · rw [← hf, if_pos hlen]
            have : tablesAt ((p, fts) :: frest) p = fts := by
              simp [tablesAt, List.lookup]
            rw [this]
            exact filterTables_eq h1
          · rw [← hf, if_neg hlen]
            have hnm : p ∉ frest.map Prod.fst :=
              fun hm => hp0 ((filter_keys_sublist h2).subset hm)
            rw [tablesAt, lookup_eq_none_of_not_mem hnm]
            have hfts := filterTables_eq h1
            have hnil : fts = [] := List.length_eq_zero.mp (by omega)
            rw [hnil] at hfts
            simp [← hfts]
        · have hbeq : (p == p0) = false := by simpa using hpe
          have hL : tablesAt ((p0, ts) :: rest) p = tablesAt rest p := by
            simp [tablesAt, List.lookup, hbeq]
          rw [hL, ← ih hnd' h2]
          by_cases hlen : fts.length > 0
          · rw [← hf, if_pos hlen]
            simp [tablesAt, List.lookup, hbeq]
          · rw [← hf, if_neg hlen]

theorem reduceSpaces_idem (s : String) :
    reduceSpaces (reduceSpaces s) = reduceSpaces s := by
  obtain ⟨hso, hadj, hhead, hlast⟩ := reduceSpaces_shape s
  have h1 : collapseRuns false (reduceSpaces s).data = (reduceSpaces s).data :=
    collapseRuns_fixed hso hadj
  have h2 : trimGo (reduceSpaces s).data = (reduceSpaces s).data := by
    rw [trimGo, dropWhile_fixed (fun c hc => (hhead c hc).1),
      trimRight_fixed (fun c hc => (hlast c hc).1)]
  show String.mk (trimGo (collapseRuns false (reduceSpaces s).data)) = reduceSpaces s
  rw [h1, h2, mk_data]

/-! ### The CSV round trip -/

theorem parseQuoted_escape (f rest : List Char) (h : ∀ r, rest ≠ '"' :: r) :
    parseQuoted (escapeQuotes f ++ '"' :: rest) = (f, rest) := by
  induction f with
  | nil =>
    rw [escapeQuotes, List.nil_append]
    cases rest with
    | nil => exact parseQuoted_q_nil
    | cons c cs =>
      have hc : c ≠ '"' := fun he => h cs (by rw [he])
      exact parseQuoted_q_other hc cs
  | cons c f' ih =>
    rw [escapeQuotes]
    by_cases hc : c = '"'
    · subst hc
      rw [if_pos rfl, List.cons_append, List.cons_append, parseQuoted_q_q, ih]
    · rw [if_neg hc, List.cons_append, parseQuoted_other hc, ih]

theorem parseUnquoted_stop (f rest : List Char)
    (hf : ∀ c ∈ f, ¬(c = ',' ∨ c = '\n'))
    (hr : rest = [] ∨ (∃ t, rest = ',' :: t) ∨ (∃ t, rest = '\n' :: t)) :
    parseUnquoted (f ++ rest) = (f, rest) := by
  induction f with
  | nil =>
    rw [List.nil_append]
    rcases hr with h | ⟨t, h⟩ | ⟨t, h⟩
    · subst h; rfl
    · subst h
      simp [parseUnquoted]
    · subst h
      simp [parseUnquoted]
  | cons c f' ih =>
    rw [List.cons_append]
    simp only [parseUnquoted]
    rw [if_neg (hf c (by simp)),
      ih (fun d hd => hf d (List.mem_cons_of_mem _ hd))]

theorem no_special_of_not_quoted {f : String} (h : fieldNeedsQuotes f = false) :
    ∀ c ∈ f.data, c ≠ ',' ∧ c ≠ '"' ∧ c ≠ '\r' ∧ c ≠ '\n' := by
  intro c hc
  by_cases h0 : f = ""
  · subst h0
    rw [show ("" : String).data = [] from rfl] at hc
    simp at hc
  · rw [fieldNeedsQuotes, if_neg h0] at h
    by_cases h1 : f = "\\."
    · rw [if_pos h1] at h
      simp at h
    · rw [if_neg h1] at h
      by_cases h2 : f.data.any (fun c => c = ',' || c = '"' || c = '\r' || c = '\n')
      · rw [if_pos h2] at h
        simp at h
      · refine ⟨?_, ?_, ?_, ?_⟩ <;> intro he <;>
          exact h2 (List.any_eq_true.mpr ⟨c, hc, by subst he; simp⟩)

theorem parseField_writeField (f : String) (rest : List Char)
    (hr : rest = [] ∨ (∃ t, rest = ',' :: t) ∨ (∃ t, rest = '\n' :: t)) :
    parseField (writeField f ++ rest) = (f.data, rest) := by
  rw [writeField]
  by_cases hq : fieldNeedsQuotes f
  · rw [if_pos hq]
    have hassoc : ('"' :: (escapeQuotes f.data ++ ['"'])) ++ rest
        = '"' :: (escapeQuotes f.data ++ '"' :: rest) := by simp
    rw [hassoc, parseField_quote]
    refine parseQuoted_escape f.data rest ?_
    intro r he
    rcases hr with h | ⟨t, h⟩ | ⟨t, h⟩ <;> subst h <;> simp at he
  · rw [if_neg hq]
    have hns := no_special_of_not_quoted (by simpa using hq)
    cases hfd : f.data with
    | nil =>
      rw [List.nil_append]
      rcases hr with h | ⟨t, h⟩ | ⟨t, h⟩
      · subst h
        rw [parseField_nil]
      · subst h
        rw [parseField_other (by simp) t]
        simp [parseUnquoted]
      · subst h
        rw [parseField_other (by simp) t]
        simp [parseUnquoted]
    | cons c cs =>
      have hns' : ∀ d ∈ (c :: cs : List Char), d ≠ ',' ∧ d ≠ '"' ∧ d ≠ '\r' ∧ d ≠ '\n' := by
        rw [← hfd]
        exact hns
      have hc : c ≠ '"' := (hns' c (by simp)).2.1
      rw [List.cons_append, parseField_other hc, ← List.cons_append]
      refine parseUnquoted_stop (c :: cs) rest ?_ hr
      intro d hd hor
      rcases hor with he | he
      · exact (hns' d hd).1 he
      · exact (hns' d hd).2.2.2 he

theorem parseRecord_eq_comma {X F R : List Char} (h : parseField X = (F, ',' :: R)) :
    parseRecord X = (F :: (parseRecord R).1, (parseRecord R).2) := by
  rw [parseRecord]
  split
  · next r hr =>
    rw [h] at hr
    injection hr with h1 h2
    subst h2
    show ((parseField X).1 :: (parseRecord R).1, (parseRecord R).2)
      = (F :: (parseRecord R).1, (parseRecord R).2)
    rw [h]
  · next r hr =>
    rw [h] at hr
    injection hr with h1 h2
    simp at h1
  · next hn1 hn2 =>
    exact absurd (by rw [h]) (hn1 R)

theorem parseRecord_eq_newline {X F R : List Char} (h : parseField X = (F, '\n' :: R)) :
    parseRecord X = ([F], R) := by
  rw [parseRecord]
  split
  · next r hr =>
    rw [h] at hr
    injection hr with h1 h2
    simp at h1
  · next r hr =>
    rw [h] at hr
    injection hr with h1 h2
    subst h2
    show ([(parseField X).1], R) = ([F], R)
    rw [h]
  · next hn1 hn2 =>
    exact absurd (by rw [h]) (hn2 R)

theorem parseRecord_writeRow (row : List String) (rest : List Char) (hrow : row ≠ []) :
    parseRecord (joinComma (row.map writeField) ++ '\n' :: rest)
      = (row.map String.data, rest) := by
  induction row with
  | nil => exact absurd rfl hrow
  | cons f row' ih =>
    cases row' with
    | nil =>
      rw [List.map_cons, List.map_nil, joinComma]
      have h1 := parseField_writeField f ('\n' :: rest) (Or.inr (Or.inr ⟨rest, rfl⟩))
      rw [parseRecord_eq_newline h1]
      simp
    | cons g row'' =>
      rw [List.map_cons, List.map_cons, joinComma]
      have hassoc : (writeField f ++ ',' :: joinComma (writeField g :: row''.map writeField))
            ++ '\n' :: rest
          = writeField f ++ ',' :: (joinComma (writeField g :: row''.map writeField)
            ++ '\n' :: rest) := by
        simp
      rw [hassoc]
      have h1 := parseField_writeField f
        (',' :: (joinComma (writeField g :: row''.map writeField) ++ '\n' :: rest))
        (Or.inr (Or.inl ⟨_, rfl⟩))
      rw [parseRecord_eq_comma h1]
      have hmap : writeField g :: row''.map writeField = (g :: row'').map writeField := by
        simp
      rw [hmap, ih (by simp)]
      simp

theorem writeField_head_ne {f : String} {c : Char} {cs : List Char}
    (h : writeField f = c :: cs) : c ≠ '\n' := by
  rw [writeField] at h
  by_cases hq : fieldNeedsQuotes f
  · rw [if_pos hq] at h
    have : c = '"' := by
      have := congrArg List.head? h
      simpa using this.symm
    rw [this]
    simp
  · rw [if_neg hq] at h
    have hns := no_special_of_not_quoted (by simpa using hq)
    have hmem : c ∈ f.data := by rw [h]; simp
    exact (hns c hmem).2.2.2

theorem writeField_nil_imp {f : String} (hw : writeField f = []) : f = "" := by
  rw [writeField] at hw
  by_cases hq : fieldNeedsQuotes f
  · rw [if_pos hq] at hw
    simp at hw
  · rw [if_neg hq] at hw
    have := congrArg String.mk hw
    rwa [mk_data] at this

theorem writeRecord_head (row : List String) (h1 : row ≠ []) (h2 : row ≠ [""]) :
    ∃ c cs, writeRecord row = c :: cs ∧ c ≠ '\n' := by
  rw [writeRecord]
  cases row with
  | nil => exact absurd rfl h1
  | cons f row' =>
    cases row' with
    | nil =>
      rw [List.map_cons, List.map_nil, joinComma]
      have hf : f ≠ "" := fun he => h2 (by rw [he])
      cases hw : writeField f with
      | nil => exact absurd (writeField_nil_imp hw) hf
      | cons c cs =>
        exact ⟨c, cs ++ ['\n'], by simp, writeField_head_ne hw⟩
    | cons g row'' =>
      rw [List.map_cons, List.map_cons, joinComma]
      cases hw : writeField f with
      | nil =>
        exact ⟨',', joinComma (writeField g :: row''.map writeField) ++ ['\n'], by simp, by simp⟩
      | cons c cs =>
        refine ⟨c, cs ++ ',' :: joinComma (writeField g :: row''.map writeField) ++ ['\n'], ?_,
          writeField_head_ne hw⟩
        simp

theorem parseCSV_nil : parseCSV [] = [] := by
  rw [parseCSV]

theorem parseCSV_newline (cs : List Char) : parseCSV ('\n' :: cs) = parseCSV cs := by
  rw [parseCSV]

theorem parseCSV_cons_ne {c : Char} {cs : List Char} (hc : c ≠ '\n') :
    parseCSV (c :: cs) = (parseRecord (c :: cs)).1 :: parseCSV (parseRecord (c :: cs)).2 := by
  rw [parseCSV.eq_def]
  split
  · next heq => exact absurd heq (by simp)
  · next rest heq =>
    injection heq with hh
    exact absurd hh hc
  · next c' rest' hne heq =>
    show (parseRecord (c' :: rest')).1 :: parseCSV (parseRecord (c' :: rest')).2
      = (parseRecord (c :: cs)).1 :: parseCSV (parseRecord (c :: cs)).2
    rw [← heq]

theorem parseCSV_writeRecord (row : List String) (rest : List Char)
    (h1 : row ≠ []) (h2 : row ≠ [""]) :
    parseCSV (writeRecord row ++ rest) = row.map String.data :: parseCSV rest := by
  obtain ⟨c, cs, hw, hc⟩ := writeRecord_head row h1 h2
  rw [hw, List.cons_append, parseCSV_cons_ne hc, ← List.cons_append, ← hw]
  have hassoc : writeRecord row ++ rest = joinComma (row.map writeField) ++ '\n' :: rest := by
    rw [writeRecord]
    simp
  rw [hassoc, parseRecord_writeRow row rest h1]

theorem csvRows_some_of_rect {w : Int} {t : stringTable}
    (h : ∀ row ∈ t, ((row.length : Nat) : Int) = w) :
    ∃ s, csvRows w t = some s := by
  induction t with
  | nil => exact ⟨[], rfl⟩
  | cons row t' ih =>
    obtain ⟨s', hs'⟩ := ih (fun r hr => h r (List.mem_cons_of_mem _ hr))
    refine ⟨writeRecord row ++ s', ?_⟩
    simp only [csvRows]
    rw [if_pos (h row (by simp)), hs']

theorem parseCSV_csvRows {w : Int} {t : stringTable} {s : List Char}
    (hf : csvRows w t = some s) (hrow : ∀ row ∈ t, row ≠ [] ∧ row ≠ [""]) :
    parseCSV s = t.map (fun row => row.map String.data) := by
  induction t generalizing s with
  | nil =>
    simp [csvRows] at hf
    rw [hf, parseCSV_nil]
    rfl
  | cons row t' ih =>
    simp only [csvRows] at hf
    by_cases hl : ((row.length : Nat) : Int) = w
    · rw [if_pos hl] at hf
      cases hrec : csvRows w t' with
      | none => rw [hrec] at hf; simp at hf
      | some s' =>
        rw [hrec] at hf
        simp only [Option.some.injEq] at hf
        rw [← hf, parseCSV_writeRecord row s' (hrow row (by simp)).1 (hrow row (by simp)).2,
          ih hrec (fun r hr => hrow r (List.mem_cons_of_mem _ hr))]
        simp
    · rw [if_neg hl] at hf
      simp at hf

theorem map_data_mk_cancel (t : List (List String)) :
    (t.map (fun row => row.map String.data)).map (fun row => row.map String.mk) = t := by
  simp [List.map_map, Function.comp_def, mk_data]

theorem csv_parse_roundtrip (t : stringTable)
    (hrect : ∀ row ∈ t, row.length = (t.headD []).length)
    (hrow : ∀ row ∈ t, row ≠ [] ∧ row ≠ [""]) :
    ∃ out, csv t = some out ∧ parseCSVText out = t := by
  have hint : ∀ row ∈ t, ((row.length : Nat) : Int) = (wh t).1 := by
    intro row hrw
    cases t with
    | nil => simp at hrw
    | cons r0 rs =>
      have hl := hrect row hrw
      simp only [List.headD_cons] at hl
      simp [wh, hl]
  obtain ⟨s, hs⟩ := csvRows_some_of_rect hint
  refine ⟨String.mk s, ?_, ?_⟩
  · rw [csv, hs]
    rfl
  · rw [parseCSVText, data_mk, parseCSV_csvRows hs hrow, map_data_mk_cancel]

/-! ### `csv` on a non-rectangular table -/

theorem csvRows_none_of_badrow {w : Int} {t : stringTable} {row : List String}
    (hmem : row ∈ t) (hlen : ((row.length : Nat) : Int) ≠ w) : csvRows w t = none := by
  induction t with
  | nil => simp at hmem
  | cons r t' ih =>
    simp only [csvRows]
    rcases List.mem_cons.mp hmem with he | he
    · subst he
      rw [if_neg hlen]
    · by_cases hr : ((r.length : Nat) : Int) = w
      · rw [if_pos hr, ih he]
      · rw [if_neg hr]

theorem csv_none_of_nonrect {t : stringTable} {r0 row : List String}
    (h0 : t.head? = some r0) (hmem : row ∈ t) (hlen : row.length ≠ r0.length) :
    csv t = none := by
  cases t with
  | nil => simp at h0
  | cons a rs =>
    simp only [List.head?_cons, Option.some.injEq] at h0
    subst h0
    rw [csv, csvRows_none_of_badrow hmem ?_]
    · rfl
    · simp only [wh]
      exact_mod_cast hlen

/-! ### The frame property of `filter` over the explicit heap -/

theorem read_alloc {hp : Heap} {r : Nat} (h : r < hp.refs.length) :
    (hp.alloc).1.read r = hp.read r := by
  simp only [Heap.alloc, Heap.read, List.getD_eq_getElem?_getD, List.getElem?_append]
  rw [if_pos h]

theorem read_writeKey_ne {hp : Heap} {r dst : Nat} {k : Int} {v : List stringTable}
    (h : r ≠ dst) : (hp.writeKey dst k v).read r = hp.read r := by
  simp only [Heap.writeKey, Heap.read, List.getD_eq_getElem?_getD]
  rw [List.getElem?_set_ne (fun he => h he.symm)]

theorem filterLoop_read {w ht : Int} {dst r : Nat} (hne : r ≠ dst) :
    ∀ (es : List (Int × List stringTable)) (hp hp' : Heap),
      filterLoop w ht dst es hp = some hp' → hp'.read r = hp.read r := by
  intro es
  induction es with
  | nil =>
    intro hp hp' hf
    simp [filterLoop] at hf
    rw [hf]
  | cons e rest ih =>
    intro hp hp' hf
    obtain ⟨p, ts⟩ := e
    rw [filterLoop] at hf
    cases h1 : filterTables w ht ts with
    | none => rw [h1] at hf; simp at hf
    | some fts =>
      rw [h1] at hf
      rw [ih _ _ hf]
      split
      · exact read_writeKey_ne hne
      · rfl

theorem filterH_read {hp hp' : Heap} {r rN : Nat} {w ht : Int}
    (hr : r < hp.refs.length) (hf : filterH hp r w ht = some (hp', rN)) :
    hp'.read r = hp.read r := by
  rw [filterH] at hf
  cases hloop : filterLoop w ht (hp.alloc).2 (hp.read r) (hp.alloc).1 with
  | none => rw [hloop] at hf; simp at hf
  | some hp2 =>
    rw [hloop] at hf
    simp only [Option.map_some', Option.some.injEq, Prod.mk.injEq] at hf
    have hne : r ≠ (hp.alloc).2 := fun he => absurd hr (by rw [he]; simp [Heap.alloc])
    rw [← hf.1, filterLoop_read hne _ _ _ hloop]
    exact read_alloc hr

/-! ### `saveCSVFiles`: path names and page order -/

theorem csv_some_of_rect {t : stringTable}
    (hrect : ∀ row ∈ t, row.length = (t.headD []).length) : ∃ c, csv t = some c := by
  have hint : ∀ row ∈ t, ((row.length : Nat) : Int) = (wh t).1 := by
    intro row hrw
    cases t with
    | nil => simp at hrw
    | cons r0 rs =>
      have hl := hrect row hrw
      simp only [List.headD_cons] at hl
      simp [wh, hl]
  obtain ⟨s, hs⟩ := csvRows_some_of_rect hint
  refine ⟨String.mk s, ?_⟩
  rw [csv, hs]
  rfl

theorem saveTables_paths {csvRoot : String} {p : Int} {ts : List stringTable}
    (h : ∀ t ∈ ts, ∃ c, csv t = some c) :
    ∀ i, ∃ l, saveTables csvRoot p i ts = some l
      ∧ l.map Prod.fst = (List.range ts.length).map (fun j => csvPath csvRoot p (i + j)) := by
  induction ts with
  | nil => exact fun i => ⟨[], rfl, by simp⟩
  | cons t ts' ih =>
    intro i
    obtain ⟨c, hc⟩ := h t (by simp)
    obtain ⟨l', hl', hmap⟩ := ih (fun u hu => h u (List.mem_cons_of_mem _ hu)) (i + 1)
    refine ⟨(csvPath csvRoot p i, c) :: l', ?_, ?_⟩
    · rw [saveTables, hc, hl']
    · rw [List.map_cons, hmap, List.length_cons, List.range_succ_eq_map, List.map_cons,
        List.map_map]
      refine congrArg₂ List.cons (by rw [Nat.add_zero]) ?_
      apply List.map_congr_left
      intro j hj
      show csvPath csvRoot p (i + 1 + j) = csvPath csvRoot p (i + (j + 1))
      congr 1
      omega

theorem savePages_paths {csvRoot : String} {r : PageMap}
    (h : ∀ (p : Int), ∀ t ∈ tablesAt r p, ∃ c, csv t = some c) :
    ∀ ps, ∃ l, savePages csvRoot r ps = some l
      ∧ l.map Prod.fst = ps.flatMap (fun p =>
          (List.range (tablesAt r p).length).map (fun j => csvPath csvRoot p j)) := by
  intro ps
  induction ps with
  | nil => exact ⟨[], rfl, by simp⟩
  | cons p ps' ih =>
    obtain ⟨l1, hl1, hm1⟩ := saveTables_paths (fun t ht => h p t ht) 0
    obtain ⟨l2, hl2, hm2⟩ := ih
    refine ⟨l1 ++ l2, ?_, ?_⟩
    · rw [savePages, hl1, hl2]
    · rw [List.map_append, hm1, hm2, List.flatMap_cons]
      congr 1
      apply List.map_congr_left
      intro j hj
      rw [Nat.zero_add]

theorem lookup_mem {p : Int} {m : PageMap} {v : List stringTable}
    (h : List.lookup p m = some v) : (p, v) ∈ m := by
  induction m with
  | nil => simp [List.lookup] at h
  | cons e rest ih =>
    obtain ⟨k, w⟩ := e
    rw [List.lookup] at h
    cases hk : p == k with
    | true =>
      rw [hk] at h
      have hwv : w = v := by simpa using h
      have hpk : p = k := by simpa using hk
      simp [hpk, hwv]
    | false =>
      rw [hk] at h
      exact List.mem_cons_of_mem _ (ih h)

/-!
## The claims
-/

/-- C1: for every DocumentTableSet (with the Go-map invariant of unique page
keys) and every pair of thresholds `(w, h)` for which `filter` completes,
every table in the result of `filter` has width ≥ `w` and height ≥ `h`
(dimensions per `wh`), every table of the receiver satisfying that predicate
appears in the result on its page, and within each page the retained tables
are a subsequence of the originals, so their relative order is preserved. -/
theorem claim_c1_filter_correct (r r' : PageMap) (w h : Int)
    (hnd : (r.map Prod.fst).Nodup) (hf : filter r w h = some r') :
    (∀ (p : Int), ∀ t ∈ tablesAt r' p, w ≤ (wh t).1 ∧ h ≤ (wh t).2)
    ∧ (∀ (p : Int), ∀ t ∈ tablesAt r p, w ≤ (wh t).1 → h ≤ (wh t).2 → t ∈ tablesAt r' p)
    ∧ (∀ p : Int, (tablesAt r' p).Sublist (tablesAt r p)) := by
  refine ⟨?_, ?_, ?_⟩
  · intro p t ht
    rw [filter_tablesAt hnd hf p] at ht
    have hpass := (List.mem_filter.mp ht).2
    simp only [passes, Bool.and_eq_true, decide_eq_true_eq] at hpass
    exact hpass
  · intro p t ht hw hh
    rw [filter_tablesAt hnd hf p]
    refine List.mem_filter.mpr ⟨ht, ?_⟩
    simp only [passes, Bool.and_eq_true, decide_eq_true_eq]
    exact ⟨hw, hh⟩
  · intro p
    rw [filter_tablesAt hnd hf p]
    exact List.filter_sublist _

theorem claim_c1_filter_correct_witness :
    ((([((1 : Int), [[["a"]], [["b"], ["c"]]])] : PageMap).map Prod.fst).Nodup
      ∧ filter [((1 : Int), [[["a"]], [["b"], ["c"]]])] 1 2 = some [(1, [[["b"], ["c"]]])])
    ∧ ((∀ (p : Int), ∀ t ∈ tablesAt [((1 : Int), [[["b"], ["c"]]])] p,
          1 ≤ (wh t).1 ∧ 2 ≤ (wh t).2)
      ∧ (∀ (p : Int), ∀ t ∈ tablesAt [((1 : Int), [[["a"]], [["b"], ["c"]]])] p,
          1 ≤ (wh t).1 → 2 ≤ (wh t).2 → t ∈ tablesAt [((1 : Int), [[["b"], ["c"]]])] p)
      ∧ (∀ p : Int, (tablesAt [((1 : Int), [[["b"], ["c"]]])] p).Sublist
          (tablesAt [((1 : Int), [[["a"]], [["b"], ["c"]]])] p))) :=
  ⟨⟨by decide, by rfl⟩,
   claim_c1_filter_correct [((1 : Int), [[["a"]], [["b"], ["c"]]])] [(1, [[["b"], ["c"]]])] 1 2
     (by decide) (by rfl)⟩

/-- C2 (the code violates the claim): the loop body of `filter` evaluates
`len(table[0])` directly instead of going through the guarded `wh` accessor,
so a set containing a zero-row table makes `filter` panic with an
index-out-of-range for every pair of thresholds — it is not total on
well-formed sets. -/
theorem claim_c2_filter_empty_table_panics (w h : Int) :
    filter [((1 : Int), [([] : stringTable)])] w h = none := rfl

/-- C3 counterexample: extraction does store empty entries.  Extracting a
one-page document whose page has zero tables yields the mapping `[(1, [])]`,
an entry whose table list is empty, refuting the claimed invariant for
`extractTables`. -/
theorem claim_c3_counterexample :
    extractTables (fun _ => []) 1 1 1 = [(1, [])]
    ∧ ¬(∀ e ∈ extractTables (fun _ => ([] : List stringTable)) 1 1 1, e.2 ≠ []) := by
  constructor
  · decide
  · decide

/-- C3 amended: the no-empty-entry invariant holds for the output of
`filter`, but `extractTables` stores one entry for every page of the clamped
range — including an empty list for a page with zero tables. -/
theorem claim_c3_amended :
    (∀ (r r' : PageMap) (w h : Int), filter r w h = some r' → ∀ e ∈ r', e.2 ≠ [])
    ∧ (∀ (f : Int → List stringTable) (a b n p : Int),
        p ∈ intRange (if a < 1 then 1 else a) (if b > n then n else b) →
        (p, f p) ∈ extractTables f a b n) := by
  constructor
  · exact fun r r' w h hf => filter_entry_nonempty hf
  · intro f a b n p hp
    simp only [extractTables]
    exact List.mem_map.mpr ⟨p, hp, rfl⟩

theorem claim_c3_amended_witness :
    (filter [((1 : Int), [[["a"]]])] 1 1 = some [(1, [[["a"]]])]
      ∧ ∀ e ∈ ([((1 : Int), [[["a"]]])] : PageMap), e.2 ≠ [])
    ∧ ((2 : Int) ∈ intRange (if (1 : Int) < 1 then 1 else 1) (if (3 : Int) > 5 then 5 else 3)
      ∧ ((2 : Int), ([] : List stringTable)) ∈ extractTables (fun _ => []) 1 3 5) :=
  ⟨⟨by rfl, claim_c3_amended.1 [((1 : Int), [[["a"]]])] [(1, [[["a"]]])] 1 1 (by rfl)⟩,
   ⟨by decide, claim_c3_amended.2 (fun _ => []) 1 3 5 2 (by decide)⟩⟩

/-- C4 counterexample, two concrete failures.  Go's regexp class `\s` does
not contain the vertical tab, so `normalize` leaves `"a\v\vb"` unchanged
and its output contains two consecutive whitespace characters, refuting the
no-consecutive-whitespace conjunct.  The line separator U+2028 is NFKC-fixed,
outside `\s` and outside the trim cutset, so `normalize` leaves `"\u2028a"`
unchanged and its output begins with a Unicode whitespace character,
refuting the no-leading/trailing-whitespace conjunct as well. -/
theorem claim_c4_counterexample :
    (normalize "a\x0b\x0bb" = "a\x0b\x0bb"
      ∧ hasTwoConsec specWhitespace (normalize "a\x0b\x0bb").data = true)
    ∧ (normalize "\u2028a" = "\u2028a"
      ∧ (normalize "\u2028a").data.head? = some '\u2028'
      ∧ specWhitespace '\u2028' = true) := by
  refine ⟨⟨rfl, by decide⟩, rfl, by decide, by decide⟩

/-- C4 amended: the whitespace-reduction stage `reduceSpaces` is idempotent
on every input, and `normalize` is idempotent on NFKC-fixed input — in
particular on all ASCII text (idempotency on other input depends on the
external NFKC normalizer, which is outside this embedding).  The output of
`normalize` never contains two consecutive characters of the collapsed class
`[\t\n\f\r ]`, and never begins or ends with a character of that class or of
the trim cutset `" \t\n\r\v"`.  Whitespace outside those classes survives:
two consecutive vertical tabs can remain in the interior, and non-ASCII
Unicode whitespace such as U+2028 can remain anywhere, the ends included. -/
theorem claim_c4_amended (s : String) :
    ((∀ c ∈ s.data, c.toNat < 0x80) → normalize (normalize s) = normalize s)
    ∧ reduceSpaces (reduceSpaces s) = reduceSpaces s
    ∧ hasTwoConsec goRegexSpace (normalize s).data = false
    ∧ (∀ c, (normalize s).data.head? = some c → trimCut c = false ∧ goRegexSpace c = false)
    ∧ (∀ c, (normalize s).data.getLast? = some c →
        trimCut c = false ∧ goRegexSpace c = false) := by
  have hshape := reduceSpaces_shape (nfkc s)
  exact ⟨fun _ => reduceSpaces_idem (nfkc s), reduceSpaces_idem s, hshape.2.1,
    hshape.2.2.1, hshape.2.2.2⟩

theorem claim_c4_amended_witness :
    ((∀ c ∈ (" a  b\x0b" : String).data, c.toNat < 0x80)
      ∧ (normalize " a  b\x0b").data.head? = some 'a'
      ∧ (normalize " a  b\x0b").data.getLast? = some 'b')
    ∧ (normalize (normalize " a  b\x0b") = normalize " a  b\x0b"
      ∧ reduceSpaces (reduceSpaces " a  b\x0b") = reduceSpaces " a  b\x0b"
      ∧ hasTwoConsec goRegexSpace (normalize " a  b\x0b").data = false
      ∧ (trimCut 'a' = false ∧ goRegexSpace 'a' = false)
      ∧ (trimCut 'b' = false ∧ goRegexSpace 'b' = false)) :=
  ⟨⟨by decide, by decide, by decide⟩,
   ⟨(claim_c4_amended " a  b\x0b").1 (by decide), (claim_c4_amended " a  b\x0b").2.1,
    (claim_c4_amended " a  b\x0b").2.2.1,
    (claim_c4_amended " a  b\x0b").2.2.2.1 'a' (by decide),
    (claim_c4_amended " a  b\x0b").2.2.2.2 'b' (by decide)⟩⟩

/-- C5 counterexample: the 1×1 table holding one empty cell contains no null
byte, yet `csv` renders it as a single blank line and the standard CSV parse
of `"\n"` yields no record at all, so the round trip loses the table. -/
theorem claim_c5_counterexample :
    csv [[""]] = some "\n"
    ∧ parseCSVText "\n" = []
    ∧ parseCSVText "\n" ≠ [[""]] := by
  have h2 : parseCSVText "\n" = [] := by
    rw [parseCSVText, show ("\n" : String).data = ['\n'] from rfl, parseCSV_newline,
      parseCSV_nil]
    rfl
  exact ⟨rfl, h2, by rw [h2]; simp⟩

/-- C5 amended: for every rectangular table whose cells contain no raw null
byte, and in which additionally no row renders as a blank line (no empty row
and no row consisting of exactly one empty cell), `csv` followed by a
standard CSV parse yields exactly the original grid. -/
theorem claim_c5_amended (t : stringTable)
    (hrect : ∀ row ∈ t, row.length = (t.headD []).length)
    (_hnull : ∀ row ∈ t, ∀ cell ∈ row, ('\x00' : Char) ∉ cell.data)
    (hrow : ∀ row ∈ t, row ≠ [] ∧ row ≠ [""]) :
    ∃ out, csv t = some out ∧ parseCSVText out = t :=
  csv_parse_roundtrip t hrect hrow

theorem claim_c5_amended_witness :
    ((∀ row ∈ ([["a,b", "c\"d"], ["", "e f"]] : stringTable),
        row.length = (([["a,b", "c\"d"], ["", "e f"]] : stringTable).headD []).length)
      ∧ (∀ row ∈ ([["a,b", "c\"d"], ["", "e f"]] : stringTable), ∀ cell ∈ row,
          ('\x00' : Char) ∉ cell.data)
      ∧ (∀ row ∈ ([["a,b", "c\"d"], ["", "e f"]] : stringTable), row ≠ [] ∧ row ≠ [""]))
    ∧ ∃ out, csv [["a,b", "c\"d"], ["", "e f"]] = some out
        ∧ parseCSVText out = [["a,b", "c\"d"], ["", "e f"]] :=
  ⟨⟨by decide, by decide, by decide⟩,
   claim_c5_amended [["a,b", "c\"d"], ["", "e f"]] (by decide) (by decide) (by decide)⟩

/-- C6: on every table in which some row's length differs from row 0's
length, `csv` fails fatally (panics) instead of emitting output. -/
theorem claim_c6_csv_nonrect_fatal (t : stringTable) (r0 row : List String)
    (h0 : t.head? = some r0) (hmem : row ∈ t) (hlen : row.length ≠ r0.length) :
    csv t = none :=
  csv_none_of_nonrect h0 hmem hlen

theorem claim_c6_csv_nonrect_fatal_witness :
    (([["a", "b", "c"], ["d", "e"]] : stringTable).head? = some ["a", "b", "c"]
      ∧ ["d", "e"] ∈ ([["a", "b", "c"], ["d", "e"]] : stringTable)
      ∧ (["d", "e"] : List String).length ≠ (["a", "b", "c"] : List String).length)
    ∧ csv [["a", "b", "c"], ["d", "e"]] = none :=
  ⟨⟨by decide, by decide, by decide⟩,
   claim_c6_csv_nonrect_fatal [["a", "b", "c"], ["d", "e"]] ["a", "b", "c"] ["d", "e"]
     (by decide) (by decide) (by decide)⟩

/-- C7: `filter` leaves its receiver unchanged.  In the explicit-heap model
`filterH`, which performs exactly the allocation and per-page writes of the
Go `filter`, the receiver's map reads back identically after the call, so
`describe` on the receiver yields the same output before and after, for
every verbosity level. -/
theorem claim_c7_filter_frame (hp hp' : Heap) (r rN : Nat) (w ht level : Int)
    (hr : r < hp.refs.length) (hf : filterH hp r w ht = some (hp', rN)) :
    describe (Heap.read hp' r) level = describe (Heap.read hp r) level := by
  rw [filterH_read hr hf]

theorem claim_c7_filter_frame_witness :
    (0 < (Heap.mk [[((1 : Int), [[["a"]]])]]).refs.length
      ∧ filterH (Heap.mk [[((1 : Int), [[["a"]]])]]) 0 1 1
          = some (Heap.mk [[((1 : Int), [[["a"]]])], [((1 : Int), [[["a"]]])]], 1))
    ∧ describe (Heap.read (Heap.mk [[((1 : Int), [[["a"]]])], [((1 : Int), [[["a"]]])]]) 0) 2
        = describe (Heap.read (Heap.mk [[((1 : Int), [[["a"]]])]]) 0) 2 :=
  ⟨⟨by decide, by rfl⟩,
   claim_c7_filter_frame (Heap.mk [[((1 : Int), [[["a"]]])]])
     (Heap.mk [[((1 : Int), [[["a"]]])], [((1 : Int), [[["a"]]])]]) 0 1 1 1 2
     (by decide) (by rfl)⟩

/-- C8: serialization writes one file per retained table, named
`<csvRoot>.page<pageNumber>.table<index+1>.csv` with the table index
rendered 1-based, and pages are visited in the ascending numeric order given
by `pageNumbers`. -/
theorem claim_c8_saveCSVFiles_paths (r : PageMap) (csvRoot : String)
    (hrect : ∀ e ∈ r, ∀ t ∈ e.2, ∀ row ∈ t, row.length = (t.headD []).length) :
    ∃ l, saveCSVFiles r csvRoot = some l
      ∧ l.map Prod.fst = (pageNumbers r).flatMap (fun p =>
          (List.range (tablesAt r p).length).map (fun i =>
            csvRoot ++ ".page" ++ toString p ++ ".table" ++ toString (i + 1) ++ ".csv"))
      ∧ List.Sorted (· ≤ ·) (pageNumbers r) := by
  have hall : ∀ (p : Int), ∀ t ∈ tablesAt r p, ∃ c, csv t = some c := by
    intro p t ht
    rw [tablesAt] at ht
    cases hlk : List.lookup p r with
    | none => rw [hlk] at ht; simp at ht
    | some v =>
      rw [hlk] at ht
      simp only [Option.getD_some] at ht
      exact csv_some_of_rect (hrect (p, v) (lookup_mem hlk) t ht)
  obtain ⟨l, hl, hm⟩ := savePages_paths hall (pageNumbers r)
  exact ⟨l, hl, hm, List.sorted_insertionSort _ _⟩

theorem claim_c8_saveCSVFiles_paths_witness :
    (∀ e ∈ ([((2 : Int), [[["a"]]]), ((1 : Int), [[["b"]], [["c"]]])] : PageMap),
      ∀ t ∈ e.2, ∀ row ∈ t, row.length = (t.headD []).length)
    ∧ ∃ l, saveCSVFiles [((2 : Int), [[["a"]]]), ((1 : Int), [[["b"]], [["c"]]])] "root" = some l
        ∧ l.map Prod.fst
          = (pageNumbers [((2 : Int), [[["a"]]]), ((1 : Int), [[["b"]], [["c"]]])]).flatMap
              (fun p => (List.range
                  (tablesAt [((2 : Int), [[["a"]]]), ((1 : Int), [[["b"]], [["c"]]])] p).length).map
                (fun i => "root" ++ ".page" ++ toString p ++ ".table" ++ toString (i + 1) ++ ".csv"))
        ∧ List.Sorted (· ≤ ·)
            (pageNumbers [((2 : Int), [[["a"]]]), ((1 : Int), [[["b"]], [["c"]]])]) :=
  ⟨by decide,
   claim_c8_saveCSVFiles_paths [((2 : Int), [[["a"]]]), ((1 : Int), [[["b"]], [["c"]]])] "root"
     (by decide)⟩

/-- C9: `describe` at level 0 returns exactly one newline on every set, and
at every level it returns exactly one newline on a set whose total table
count is zero. -/
theorem claim_c9_describe_empty (r : PageMap) (level : Int) :
    describe r 0 = "\n" ∧ (numTables r = 0 → describe r level = "\n") := by
  constructor
  · rw [describe, if_pos (Or.inl rfl)]
  · intro h
    rw [describe, if_pos (Or.inr h)]

theorem claim_c9_describe_empty_witness :
    (numTables [((1 : Int), ([] : List stringTable))] = 0)
    ∧ describe [((1 : Int), ([] : List stringTable))] 0 = "\n"
    ∧ describe [((1 : Int), ([] : List stringTable))] 4 = "\n" :=
  ⟨by decide, (claim_c9_describe_empty [((1 : Int), ([] : List stringTable))] 4).1,
   (claim_c9_describe_empty [((1 : Int), ([] : List stringTable))] 4).2 (by decide)⟩

/-- C10: `extractDirectory(path, 1)` — used by the driver for the year-like
grouping token — is partial: on a path with a single `/`-separated segment
it aborts with an out-of-range index (modelled `none`) instead of returning
a token or an error value, and with at least two segments it returns a
token, so the driver requires every input path to contain at least one `/`. -/
theorem claim_c10_extractDirectory_aborts (fp : String) :
    ((goSplit '/' fp.data).length = 1 → extractDirectory fp 1 = none)
    ∧ (2 ≤ (goSplit '/' fp.data).length →
        ∃ tok, extractDirectory fp 1 = some (Except.ok tok)) := by
  constructor
  · intro h
    rw [extractDirectory]
    rw [if_neg (by omega), if_neg (by decide)]
    rw [dif_neg]
    intro hc
    rw [h] at hc
    omega
  · intro h
    rw [extractDirectory]
    rw [if_neg (by omega), if_neg (by decide)]
    rw [dif_pos ⟨by decide, by omega⟩]
    exact ⟨_, rfl⟩

theorem claim_c10_extractDirectory_aborts_witness :
    ((goSplit '/' ("kondate" : String).data).length = 1
      ∧ extractDirectory "kondate" 1 = none)
    ∧ (2 ≤ (goSplit '/' ("2024/June.pdf" : String).data).length
      ∧ ∃ tok, extractDirectory "2024/June.pdf" 1 = some (Except.ok tok)) :=
  ⟨⟨by decide, (claim_c10_extractDirectory_aborts "kondate").1 (by decide)⟩,
   ⟨by decide, (claim_c10_extractDirectory_aborts "2024/June.pdf").2 (by decide)⟩⟩

end ExtractPDF
